import Mathlib

/-!
# A verification model of the rustdoc JSON renderer

Shallow embedding of `src/librustdoc/json/{mod.rs, types.rs, conversions.rs}`:
the identity index, relation resolver, flattening pass and document assembler
of the JSON output backend, together with the item-model conversion.

Conventions:
* `Clean.*` models the internal documentation model `clean::*` as it is
  destructured by the code under `src/` (type-shape payloads such as generics,
  bounds and `Type` bodies are out of scope for this component, per §1 of the
  design document, and are omitted from kind payloads).
* `Types.*` models the public output model `types.rs`.
* `JsonRenderer.*` models the renderer in `mod.rs`.  The interior-mutable
  `index: Rc<RefCell<FxHashMap<Id, Item>>>` becomes explicit state passing of
  an association list with hash-map insertion semantics (`mapInsert`
  overwrites the binding for an existing key).  The mutual recursion between
  `insert` and the relation lookups is driven by an explicit fuel parameter;
  running out of fuel is the distinguished error `RErr.fuelOut`, a panic of
  the conversion is `RErr.panic`.
-/

namespace RustdocJson

/-- Modelled from the spec: the stable identifier of a defining location
(`rustc_span::def_id::DefId`, not under `src/`), a crate number and a
definition index.  The local crate is crate number `0`
(rustc's `LOCAL_CRATE`). -/
structure DefId where
  krate : Nat
  index : Nat
deriving DecidableEq, Repr

/-- `DefId::is_local`: the origin crate is the crate being documented. -/
def DefId.is_local (d : DefId) : Bool := d.krate == 0

namespace Types

/-- `types::Id`: an opaque string key (`pub struct Id(pub String)`). -/
structure Id where
  str : String
deriving DecidableEq, Repr

/-- `impl From<def_id::DefId> for Id`:
`Id(format!("{}:{}", did.krate.as_u32(), u32::from(did.index)))`. -/
def Id.fromDefId (did : DefId) : Id :=
  ⟨toString did.krate ++ ":" ++ toString did.index⟩

end Types

namespace Clean

/-- `doctree::StructType`. -/
inductive StructType where
  | Plain
  | Tuple
  | Unit
deriving DecidableEq, Repr

mutual

/-- Modelled from the spec: `clean::Item` (not under `src/`), exactly the
fields destructured by `conversions.rs` and `mod.rs`: an optional name, the
defining identifier, and the kind-discriminated body.  The remaining fields
(`source`, `attrs`, `visibility`, `stability`, `deprecation`) are per-field
metadata whose conversion is out of scope for this component (§1). -/
inductive Item where
  | mk (name : Option String) (def_id : DefId) (inner : ItemEnum)

/-- Modelled from the spec: `clean::ItemEnum` (not under `src/`), one
constructor per internal item kind named in `conversions.rs`; the two kinds
reaching the wildcard `panic!` arm there are `PrimitiveItem` and
`KeywordItem`.  Owned nested items (the lists flattened by
`JsonRenderer::item`) are kept; pure type-shape payloads are omitted. -/
inductive ItemEnum where
  | ModuleItem (is_crate : Bool) (items : List Item)
  | ExternCrateItem (name : String) (al : Option String)
  | ImportItem
  | StructItem (struct_type : StructType) (fields : List Item) (fields_stripped : Bool)
  | UnionItem (struct_type : StructType) (fields : List Item) (fields_stripped : Bool)
  | StructFieldItem
  | EnumItem (variants : List Item) (variants_stripped : Bool)
  | VariantItem (kind : VariantKind)
  | FunctionItem
  | ForeignFunctionItem
  | TraitItem (items : List Item)
  | TraitAliasItem
  | MethodItem
  | TyMethodItem
  | ImplItem (items : List Item)
  | StaticItem
  | ForeignStaticItem
  | ForeignTypeItem
  | TypedefItem
  | OpaqueTyItem
  | ConstantItem
  | MacroItem
  | ProcMacroItem
  | AssocConstItem
  | AssocTypeItem
  | StrippedItem (inner : ItemEnum)
  | PrimitiveItem
  | KeywordItem

/-- Modelled from the spec: `clean::VariantKind` — a C-like variant, a tuple
variant (type payload omitted), or a struct-like variant carrying a
`VariantStruct` (struct type, owned field items, stripped flag). -/
inductive VariantKind where
  | CLike
  | Tuple
  | Struct (struct_type : StructType) (fields : List Item) (fields_stripped : Bool)

end

/-- Field accessor: `clean::Item::name`. -/
def Item.name : Item → Option String
  | .mk n _ _ => n

/-- Field accessor: `clean::Item::def_id`. -/
def Item.def_id : Item → DefId
  | .mk _ d _ => d

/-- Field accessor: `clean::Item::inner`. -/
def Item.inner : Item → ItemEnum
  | .mk _ _ i => i

end Clean

namespace Types

/-- `types::ItemKind`. -/
inductive ItemKind where
  | Module
  | ExternCrate
  | Import
  | Struct
  | StructField
  | Union
  | Enum
  | Variant
  | Function
  | Typedef
  | OpaqueTy
  | Constant
  | Trait
  | TraitAlias
  | Method
  | Impl
  | Static
  | ForeignType
  | Macro
  | ProcAttribute
  | ProcDerive
  | AssocConst
  | AssocType
  | Primitive
  | Keyword
deriving DecidableEq, Repr

/-- `types::Struct` (the member-identifier body of an aggregate type).
`mod.rs` assigns `s.impls` on struct and enum bodies, so the model carries
the `impls` list the renderer populates; conversion initialises it empty. -/
structure Struct where
  struct_type : Clean.StructType
  fields : List Id
  fields_stripped : Bool
  impls : List Id
deriving DecidableEq, Repr

/-- `types::Enum`. -/
structure Enum where
  variants : List Id
  variants_stripped : Bool
  impls : List Id
deriving DecidableEq, Repr

/-- `types::Variant`. -/
inductive Variant where
  | Plain
  | Tuple
  | Struct (s : Types.Struct)
deriving DecidableEq, Repr

/-- `types::Trait`, with the `implementors` list `mod.rs` populates. -/
structure Trait where
  items : List Id
  implementors : List Id
deriving DecidableEq, Repr

/-- `types::Impl` (member identifiers of an implementation block). -/
structure Impl where
  items : List Id
deriving DecidableEq, Repr

/-- `types::ItemEnum`. -/
inductive ItemEnum where
  | ModuleItem (is_crate : Bool) (items : List Id)
  | ExternCrateItem (name : String) (al : Option String)
  | ImportItem
  | StructItem (s : Types.Struct)
  | StructFieldItem
  | EnumItem (e : Types.Enum)
  | VariantItem (v : Types.Variant)
  | FunctionItem
  | ForeignFunctionItem
  | TypedefItem
  | OpaqueTyItem
  | ConstantItem
  | TraitItem (t : Types.Trait)
  | TraitAliasItem
  | MethodItem (has_body : Bool)
  | ImplItem (i : Types.Impl)
  | StaticItem
  | ForeignStaticItem
  | ForeignTypeItem
  | MacroItem
  | ProcMacroItem
  | AssocConstItem
  | AssocTypeItem
  | StrippedItem (inner : ItemEnum)
deriving DecidableEq, Repr

/-- `types::Item`: identifier, origin crate number, name, kind tag and body.
(The `source`/`visibility`/`docs`/`attrs` metadata fields are mechanical
per-field conversions, out of scope per §1.) -/
structure Item where
  id : Id
  crate_num : Nat
  name : Option String
  kind : ItemKind
  inner : ItemEnum
deriving DecidableEq, Repr

end Types

/-- Modelled from the spec: `ItemType::from(&clean::Item)` (not under
`src/`) as used for `types::Item::kind` — the kind tag of an internal item,
looking through stripped wrappers. -/
def itemKindOf : Clean.ItemEnum → Types.ItemKind
  | .ModuleItem _ _ => .Module
  | .ExternCrateItem _ _ => .ExternCrate
  | .ImportItem => .Import
  | .StructItem _ _ _ => .Struct
  | .UnionItem _ _ _ => .Union
  | .StructFieldItem => .StructField
  | .EnumItem _ _ => .Enum
  | .VariantItem _ => .Variant
  | .FunctionItem => .Function
  | .ForeignFunctionItem => .Function
  | .TraitItem _ => .Trait
  | .TraitAliasItem => .TraitAlias
  | .MethodItem => .Method
  | .TyMethodItem => .Method
  | .ImplItem _ => .Impl
  | .StaticItem => .Static
  | .ForeignStaticItem => .Static
  | .ForeignTypeItem => .ForeignType
  | .TypedefItem => .Typedef
  | .OpaqueTyItem => .OpaqueTy
  | .ConstantItem => .Constant
  | .MacroItem => .Macro
  | .ProcMacroItem => .Macro
  | .AssocConstItem => .AssocConst
  | .AssocTypeItem => .AssocType
  | .StrippedItem inner => itemKindOf inner
  | .PrimitiveItem => .Primitive
  | .KeywordItem => .Keyword

namespace Types

/-- `impl From<clean::VariantStruct> for Struct`: member identifiers of a
struct-like variant (generics defaulted; `impls` starts empty). -/
def Struct.fromVariantStruct (st : Clean.StructType) (fields : List Clean.Item)
    (fs : Bool) : Types.Struct :=
  { struct_type := st
    fields := fields.map fun i => Id.fromDefId i.def_id
    fields_stripped := fs
    impls := [] }

/-- `impl From<clean::ItemEnum> for ItemEnum` (`conversions.rs`): the
kind-discriminated body conversion.  The wildcard
`_ => panic!("{:?} is not supported for JSON output", item)` arm is `none`;
every other arm produces a body.  Owned items become identifier lists
(`items.into_iter().map(|i| i.def_id.into()).collect()`); `UnionItem`
converts to a `StructItem` body, `TyMethodItem`/`MethodItem` to `MethodItem`
bodies without/with `has_body`, and `StrippedItem` converts its wrapped body
recursively. -/
def ItemEnum.fromClean : Clean.ItemEnum → Option Types.ItemEnum
  | .ModuleItem is_crate items =>
      some (.ModuleItem is_crate (items.map fun i => Id.fromDefId i.def_id))
  | .ExternCrateItem c a => some (.ExternCrateItem c a)
  | .ImportItem => some .ImportItem
  | .StructItem st fields fs =>
      some (.StructItem
        { struct_type := st
          fields := fields.map fun i => Id.fromDefId i.def_id
          fields_stripped := fs
          impls := [] })
  | .UnionItem st fields fs =>
      some (.StructItem
        { struct_type := st
          fields := fields.map fun i => Id.fromDefId i.def_id
          fields_stripped := fs
          impls := [] })
  | .StructFieldItem => some .StructFieldItem
  | .EnumItem variants vs =>
      some (.EnumItem
        { variants := variants.map fun i => Id.fromDefId i.def_id
          variants_stripped := vs
          impls := [] })
  | .VariantItem .CLike => some (.VariantItem .Plain)
  | .VariantItem .Tuple => some (.VariantItem .Tuple)
  | .VariantItem (.Struct st fields fs) =>
      some (.VariantItem (.Struct (Struct.fromVariantStruct st fields fs)))
  | .FunctionItem => some .FunctionItem
  | .ForeignFunctionItem => some .ForeignFunctionItem
  | .TraitItem items =>
      some (.TraitItem
        { items := items.map fun i => Id.fromDefId i.def_id
          implementors := [] })
  | .TraitAliasItem => some .TraitAliasItem
  | .MethodItem => some (.MethodItem true)
  | .TyMethodItem => some (.MethodItem false)
  | .ImplItem items =>
      some (.ImplItem { items := items.map fun i => Id.fromDefId i.def_id })
  | .StaticItem => some .StaticItem
  | .ForeignStaticItem => some .ForeignStaticItem
  | .ForeignTypeItem => some .ForeignTypeItem
  | .TypedefItem => some .TypedefItem
  | .OpaqueTyItem => some .OpaqueTyItem
  | .ConstantItem => some .ConstantItem
  | .MacroItem => some .MacroItem
  | .ProcMacroItem => some .ProcMacroItem
  | .AssocConstItem => some .AssocConstItem
  | .AssocTypeItem => some .AssocTypeItem
  | .StrippedItem inner => (ItemEnum.fromClean inner).map .StrippedItem
  | .PrimitiveItem => none
  | .KeywordItem => none

/-- `impl From<clean::Item> for Item` (`conversions.rs`): identifier derived
from the defining `DefId`, origin crate number, name, kind tag and converted
body.  A panic of the body conversion propagates (`none`). -/
def Item.fromClean (item : Clean.Item) : Option Types.Item :=
  match ItemEnum.fromClean item.inner with
  | none => none
  | some inner =>
      some
        { id := Id.fromDefId item.def_id
          crate_num := item.def_id.krate
          name := item.name
          kind := itemKindOf item.inner
          inner := inner }

end Types

/-- The identity index: the contents of the renderer's
`FxHashMap<types::Id, types::Item>`, as an association list with hash-map
semantics (`lookupIdx`, and `mapInsert` which overwrites). -/
abbrev Index := List (Types.Id × Types.Item)

/-- Hash-map lookup on the index. -/
def lookupIdx : Index → Types.Id → Option Types.Item
  | [], _ => none
  | (k', v) :: rest, k => if k' = k then some v else lookupIdx rest k

/-- Hash-map insertion: `FxHashMap::insert` replaces the binding of an
already-present key with the new value (and returns the old one, which the
renderer discards). -/
def mapInsert : Index → Types.Id → Types.Item → Index
  | [], k, v => [(k, v)]
  | (k', v') :: rest, k, v =>
      if k' = k then (k, v) :: rest else (k', v') :: mapInsert rest k v

/-- Modelled from the spec: the two relation tables of the traversal source's
companion cache (`formats::cache::Cache`, not under `src/`) consumed here,
plus the assembler inputs `after_krate` reads.  §6: "two lookup structures —
type-identifier → implementation blocks, interface-identifier → implementing
blocks"; each record's `impl_item` is an internal item.  `paths` and
`external_paths` map identifiers to qualified path segments plus kind, and
`extern_locations` maps crate numbers to a declared name and an external
documentation location. -/
structure Cache where
  impls : List (DefId × List Clean.Item)
  implementors : List (DefId × List Clean.Item)
  document_private : Bool
  paths : List (DefId × (List String × Types.ItemKind))
  external_paths : List (DefId × (List String × Types.ItemKind))
  extern_locations : List (Nat × (String × Option String))

/-- `cache.impls.get(&id)` / `cache.implementors.get(&id)` followed by
`unwrap_or_default()`: an absent key is an empty relation, not an error. -/
def tableGet : List (DefId × List Clean.Item) → DefId → List Clean.Item
  | [], _ => []
  | (k', l) :: rest, k => if k' = k then l else tableGet rest k

/-- Failure of a renderer step: a `panic!` of the conversion, or exhaustion
of the explicit recursion fuel of the model. -/
inductive RErr where
  | panic
  | fuelOut
deriving DecidableEq, Repr

/-- Decidable equality of step results, for concrete evaluation. -/
instance {e a : Type} [DecidableEq e] [DecidableEq a] : DecidableEq (Except e a) := fun x y =>
  match x, y with
  | .error ex, .error ey => decidable_of_iff (ex = ey) (by simp)
  | .ok ox, .ok oy => decidable_of_iff (ox = oy) (by simp)
  | .error _, .ok _ => isFalse (by simp)
  | .ok _, .error _ => isFalse (by simp)

namespace JsonRenderer

/-- The shared loop body of `get_impls` and `get_trait_implementors`:
iterate the relation records in table order; for each record's `impl_item`,
insert it (via the supplied insertion) and append its identifier to the
result — with `localOnly = true` (the `get_impls` path) a non-local
`impl_item` is skipped entirely (neither inserted nor appended). -/
def resolveList (ins : Index → Clean.Item → Except RErr Index) (localOnly : Bool) :
    List Clean.Item → Index → Except RErr (Index × List Types.Id)
  | [], idx => .ok (idx, [])
  | e :: rest, idx =>
      if localOnly && !e.def_id.is_local then
        resolveList ins localOnly rest idx
      else
        match ins idx e with
        | .error er => .error er
        | .ok idx' =>
            match resolveList ins localOnly rest idx' with
            | .error er => .error er
            | .ok (idxf, ids) => .ok (idxf, Types.Id.fromDefId e.def_id :: ids)

/-- `JsonRenderer::insert`: convert the item; if the converted body is a
trait, populate its `implementors` from `get_trait_implementors`; if it is a
struct or enum body, populate its `impls` from `get_impls` (both lookups
insert what they find, re-entering `insert`); finally store the item in the
index under the identifier derived from its `def_id`. -/
def insert : Nat → Cache → Index → Clean.Item → Except RErr Index
  | 0, _, _, _ => .error .fuelOut
  | n + 1, cache, idx, item =>
      match Types.Item.fromClean item with
      | none => .error .panic
      | some newItem =>
          match newItem.inner with
          | .TraitItem t =>
              match resolveList (insert n cache) false
                  (tableGet cache.implementors item.def_id) idx with
              | .error er => .error er
              | .ok (idx', ids) =>
                  .ok (mapInsert idx' (Types.Id.fromDefId item.def_id)
                    { newItem with inner := .TraitItem { t with implementors := ids } })
          | .StructItem s =>
              match resolveList (insert n cache) true
                  (tableGet cache.impls item.def_id) idx with
              | .error er => .error er
              | .ok (idx', ids) =>
                  .ok (mapInsert idx' (Types.Id.fromDefId item.def_id)
                    { newItem with inner := .StructItem { s with impls := ids } })
          | .EnumItem e =>
              match resolveList (insert n cache) true
                  (tableGet cache.impls item.def_id) idx with
              | .error er => .error er
              | .ok (idx', ids) =>
                  .ok (mapInsert idx' (Types.Id.fromDefId item.def_id)
                    { newItem with inner := .EnumItem { e with impls := ids } })
          | _ => .ok (mapInsert idx (Types.Id.fromDefId item.def_id) newItem)

/-- `JsonRenderer::get_trait_implementors`: look the interface identifier up
in the implementors table and insert every implementation record found,
regardless of locality, collecting every record's identifier. -/
def get_trait_implementors (fuel : Nat) (cache : Cache) (idx : Index)
    (id : DefId) : Except RErr (Index × List Types.Id) :=
  resolveList (insert fuel cache) false (tableGet cache.implementors id) idx

/-- `JsonRenderer::get_impls`: look the type identifier up in the impls
table; insert and collect only the records whose own identifier is local. -/
def get_impls (fuel : Nat) (cache : Cache) (idx : Index)
    (id : DefId) : Except RErr (Index × List Types.Id) :=
  resolveList (insert fuel cache) true (tableGet cache.impls id) idx

/-- Insert each item of a list in order (`for_each(|i| self.insert(i, cache))`),
propagating a failure. -/
def insertAll (fuel : Nat) (cache : Cache) : Index → List Clean.Item →
    Except RErr Index
  | idx, [] => .ok idx
  | idx, e :: rest =>
      match insert fuel cache idx e with
      | .error er => .error er
      | .ok idx' => insertAll fuel cache idx' rest

/-- `JsonRenderer::item` (the flattening pass): for the kinds that
recursively store other items — struct and union fields, the fields of a
struct-like variant, enum variants, trait members, impl members — insert
every owned item first, then insert the item itself. -/
def item (fuel : Nat) (cache : Cache) (idx : Index) (it : Clean.Item) :
    Except RErr Index :=
  let flattened : Except RErr Index :=
    match it.inner with
    | .StructItem _ fields _ => insertAll fuel cache idx fields
    | .UnionItem _ fields _ => insertAll fuel cache idx fields
    | .VariantItem (.Struct _ fields _) => insertAll fuel cache idx fields
    | .EnumItem variants _ => insertAll fuel cache idx variants
    | .TraitItem items => insertAll fuel cache idx items
    | .ImplItem items => insertAll fuel cache idx items
    | _ => .ok idx
  match flattened with
  | .error er => .error er
  | .ok idx' => insert fuel cache idx' it

/-- `JsonRenderer::mod_item_in`: entering a module inserts the module item
itself (its children arrive as their own traversal events). -/
def mod_item_in (fuel : Nat) (cache : Cache) (idx : Index) (it : Clean.Item) :
    Except RErr Index :=
  insert fuel cache idx it

/-- Modelled from the spec: one traversal event of the visitor source
(`formats::renderer`, not under `src/`): entering a module, leaving a
module, or surfacing a non-module item (§6). -/
inductive Event where
  | mod_item_in (it : Clean.Item)
  | mod_item_out
  | item (it : Clean.Item)

/-- Modelled from the spec: the traversal driver invoking the renderer
callback for each event in sequence; `mod_item_out` records nothing. -/
def processEvents (fuel : Nat) (cache : Cache) : Index → List Event →
    Except RErr Index
  | idx, [] => .ok idx
  | idx, ev :: rest =>
      let step : Except RErr Index :=
        match ev with
        | .mod_item_in it => mod_item_in fuel cache idx it
        | .mod_item_out => .ok idx
        | .item it => item fuel cache idx it
      match step with
      | .error er => .error er
      | .ok idx' => processEvents fuel cache idx' rest

end JsonRenderer

/-- Modelled from the spec: the fields of `clean::Crate` (not under `src/`)
read by `after_krate`: the crate version string and the root module item. -/
structure CleanCrate where
  version : Option String
  module : Option Clean.Item

/-- `types::ItemSummary`: path-table entry. -/
structure ItemSummary where
  crate_num : Nat
  path : List String
  kind : Types.ItemKind
deriving DecidableEq, Repr

/-- `types::ExternalCrate`. -/
structure ExternalCrate where
  name : String
  html_root_url : Option String
deriving DecidableEq, Repr

/-- `types::Crate`: the assembled output document. -/
structure Crate where
  root : Types.Id
  version : Option String
  includes_private : Bool
  index : Index
  traits : List (Types.Id × Types.Trait)
  paths : List (Types.Id × ItemSummary)
  external_crates : List (Nat × ExternalCrate)

namespace JsonRenderer

/-- `JsonRenderer::after_krate` (the document assembler): the root is the
constant identifier `Id(String::from("0:0"))`; the version comes from the
crate, the privacy flag and path/extern tables from the cache, the index is
the accumulated identity index, and `traits` is left empty
(`FxHashMap::default()`). -/
def after_krate (krate : CleanCrate) (cache : Cache) (idx : Index) : Crate :=
  { root := ⟨"0:0"⟩
    version := krate.version
    includes_private := cache.document_private
    index := idx
    traits := []
    paths :=
      (cache.paths ++ cache.external_paths).map fun p =>
        (Types.Id.fromDefId p.1,
          { crate_num := p.1.krate, path := p.2.1, kind := p.2.2 })
    external_crates :=
      cache.extern_locations.map fun p =>
        (p.1, { name := p.2.1, html_root_url := p.2.2 }) }

end JsonRenderer

/-! ## Statement-level observations and predicates -/

/-- The member identifiers an output item body lists as structurally owned
(the `Vec<Id>` fields of `types.rs` bodies: module members, struct/union
fields, enum variants, the fields of a struct-like variant, trait members,
impl members), looking through stripped wrappers. -/
def memberIds : Types.ItemEnum → List Types.Id
  | .ModuleItem _ items => items
  | .StructItem s => s.fields
  | .EnumItem e => e.variants
  | .VariantItem (.Struct s) => s.fields
  | .TraitItem t => t.items
  | .ImplItem i => i.items
  | .StrippedItem inner => memberIds inner
  | _ => []

/-- Whether an internal body is an implementation block. -/
def Clean.ItemEnum.isImplKind : Clean.ItemEnum → Bool
  | .ImplItem _ => true
  | _ => false

/-- The relation tables hold implementation blocks: every record of both
tables has an impl-kinded `impl_item` (the spec's §6 contract for the
relation tables). -/
def Cache.implOnly (c : Cache) : Bool :=
  (c.impls.all fun p => p.2.all fun e => e.inner.isImplKind) &&
  (c.implementors.all fun p => p.2.all fun e => e.inner.isImplKind)

/-- The internal kinds that reach the wildcard
`_ => panic!("{:?} is not supported for JSON output", item)` arm of
`conversions.rs` directly: the kinds explicitly left unsupported. -/
def unsupportedKindDirect : Clean.ItemEnum → Bool
  | .PrimitiveItem => true
  | .KeywordItem => true
  | _ => false

/-- An internal body the conversion fails on: an unsupported kind, or a
stripped wrapper whose (transitively) wrapped body is of an unsupported
kind. -/
def unsupportedForJson : Clean.ItemEnum → Bool
  | .PrimitiveItem => true
  | .KeywordItem => true
  | .StrippedItem inner => unsupportedForJson inner
  | _ => false

/-- Nesting depth of stripped wrappers, the measure for induction over the
recursive arm of the conversion. -/
def stripDepth : Clean.ItemEnum → Nat
  | .StrippedItem inner => stripDepth inner + 1
  | _ => 0

/-- The identity-index invariant of the model: every entry stores an item
whose own `id` field equals the key it is stored under. -/
def IndexWf (idx : Index) : Prop := ∀ p ∈ idx, p.2.id = p.1

/-! ## Concrete inputs for counterexamples and witnesses -/

/-- A cache with empty relation tables. -/
def emptyCache : Cache := ⟨[], [], false, [], [], []⟩

/-- Extract the index of a successful step (empty index on failure). -/
def okIndex (r : Except RErr Index) : Index :=
  match r with
  | .ok i => i
  | .error _ => []

/-- Extract the result of a successful relation lookup. -/
def okPair (r : Except RErr (Index × List Types.Id)) : Index × List Types.Id :=
  match r with
  | .ok p => p
  | .error _ => ([], [])

/-- C1 input: an item "A" under identifier `0:7`. -/
def c1itemA : Clean.Item := .mk (some "A") ⟨0, 7⟩ .FunctionItem

/-- C1 input: a different payload "A2" under the same identifier `0:7`. -/
def c1itemA2 : Clean.Item := .mk (some "A2") ⟨0, 7⟩ .FunctionItem

/-- C1: the index after inserting `c1itemA` into the empty index. -/
def c1idx1 : Index := okIndex (JsonRenderer.insert 1 emptyCache [] c1itemA)

/-- C1: the index after then inserting `c1itemA2`. -/
def c1idx2 : Index := okIndex (JsonRenderer.insert 1 emptyCache c1idx1 c1itemA2)

/-- C2/C4 shape: a local field item. -/
def c2field : Clean.Item := .mk (some "x") ⟨0, 23⟩ .StructFieldItem

/-- C2/C4 shape: a local struct-like variant owning `c2field`. -/
def c2variant : Clean.Item :=
  .mk (some "V") ⟨0, 22⟩ (.VariantItem (.Struct .Plain [c2field] false))

/-- C2/C4 shape: a local enum owning `c2variant`. -/
def c2enum : Clean.Item := .mk (some "E") ⟨0, 21⟩ (.EnumItem [c2variant] false)

/-- C2: a crate whose root module is not `0:0`. -/
def c2krate : CleanCrate :=
  ⟨some "0.1.0", some (.mk (some "krate") ⟨0, 20⟩ (.ModuleItem true [c2enum]))⟩

/-- C2: the index after the full traversal of the one-enum crate. -/
def c2idx : Index :=
  okIndex (JsonRenderer.processEvents 2 emptyCache []
    [.mod_item_in (.mk (some "krate") ⟨0, 20⟩ (.ModuleItem true [c2enum])),
     .item c2enum, .mod_item_out])

/-- C2: the assembled document of the one-enum crate. -/
def c2doc : Crate := JsonRenderer.after_krate c2krate emptyCache c2idx

/-- C4 input: a local field item. -/
def c4field : Clean.Item := .mk (some "y") ⟨0, 33⟩ .StructFieldItem

/-- C4 input: a struct-like variant owning `c4field`. -/
def c4variant : Clean.Item :=
  .mk (some "W") ⟨0, 32⟩ (.VariantItem (.Struct .Plain [c4field] false))

/-- C4 input: an enum owning `c4variant`. -/
def c4enum : Clean.Item := .mk (some "F") ⟨0, 31⟩ (.EnumItem [c4variant] false)

/-- C4: the index after the flattening pass visits `c4enum`. -/
def c4idx : Index := okIndex (JsonRenderer.item 2 emptyCache [] c4enum)

/-- C3 input: a member item owned by an implementation block. -/
def c3member : Clean.Item := .mk (some "m") ⟨0, 43⟩ .MethodItem

/-- C3 input: a local implementation block owning `c3member`. -/
def c3impl : Clean.Item := .mk none ⟨0, 42⟩ (.ImplItem [c3member])

/-- C3: a cache whose impls table maps type `0:41` to `c3impl`. -/
def c3cache : Cache := { emptyCache with impls := [(⟨0, 41⟩, [c3impl])] }

/-- C3: the result of `get_impls` on type `0:41`. -/
def c3out : Index × List Types.Id :=
  okPair (JsonRenderer.get_impls 1 c3cache [] ⟨0, 41⟩)

/-- C5: a cache whose impls table holds one local and one external block. -/
def c5cache : Cache :=
  { emptyCache with
    impls := [(⟨0, 61⟩, [.mk none ⟨0, 62⟩ (.ImplItem []),
                         .mk none ⟨1, 63⟩ (.ImplItem [])])] }

/-- C5: the result of `get_impls` on type `0:61`. -/
def c5out : Index × List Types.Id :=
  okPair (JsonRenderer.get_impls 1 c5cache [] ⟨0, 61⟩)

/-- C6: a cache whose implementors table holds one local and one external
implementation block for trait `0:51`. -/
def c6cache : Cache :=
  { emptyCache with
    implementors := [(⟨0, 51⟩, [.mk none ⟨0, 52⟩ (.ImplItem []),
                                .mk none ⟨1, 53⟩ (.ImplItem [])])] }

/-- C6: the result of `get_trait_implementors` on trait `0:51`. -/
def c6out : Index × List Types.Id :=
  okPair (JsonRenderer.get_trait_implementors 1 c6cache [] ⟨0, 51⟩)

/-- C7: a cache whose two tables hold only implementation blocks. -/
def c7cache : Cache :=
  { emptyCache with
    impls := [(⟨0, 71⟩, [.mk none ⟨0, 72⟩ (.ImplItem [.mk (some "m") ⟨0, 73⟩ .MethodItem])])]
    implementors := [(⟨0, 74⟩, [.mk none ⟨1, 75⟩ (.ImplItem [])])] }

/-- C9: a concrete trait item whose insertion re-enters the index through
the relation resolver. -/
def c9item : Clean.Item := .mk (some "T") ⟨0, 74⟩ (.TraitItem [])

/-- C9: the index after inserting `c9item` against `c7cache`. -/
def c9idx : Index := okIndex (JsonRenderer.insert 2 c7cache [] c9item)

/-! ## Helper lemmas: the index as a map -/

theorem lookupIdx_mapInsert_self (m : Index) (k : Types.Id) (v : Types.Item) :
    lookupIdx (mapInsert m k v) k = some v := by
  induction m with
  | nil => simp [mapInsert, lookupIdx]
  | cons p rest ih =>
      obtain ⟨k', v'⟩ := p
      by_cases h : k' = k
      · simp [mapInsert, h, lookupIdx]
      · simp [mapInsert, h, lookupIdx, ih]

theorem lookupIdx_mapInsert_ne (m : Index) (k : Types.Id) (v : Types.Item)
    (k'' : Types.Id) (hne : k ≠ k'') :
    lookupIdx (mapInsert m k v) k'' = lookupIdx m k'' := by
  induction m with
  | nil => simp [mapInsert, lookupIdx, hne]
  | cons p rest ih =>
      obtain ⟨k', v'⟩ := p
      by_cases h : k' = k
      · subst h
        simp [mapInsert, lookupIdx, hne]
      · simp [mapInsert, h, lookupIdx, ih]

theorem isSome_lookupIdx_mapInsert (m : Index) (k : Types.Id) (v : Types.Item)
    (k'' : Types.Id) (h : (lookupIdx m k'').isSome = true) :
    (lookupIdx (mapInsert m k v) k'').isSome = true := by
  by_cases he : k = k''
  · subst he
    simp [lookupIdx_mapInsert_self]
  · rw [lookupIdx_mapInsert_ne m k v k'' he]
    exact h

theorem mem_mapInsert {m : Index} {k : Types.Id} {v : Types.Item}
    {p : Types.Id × Types.Item} (h : p ∈ mapInsert m k v) :
    p = (k, v) ∨ p ∈ m := by
  induction m with
  | nil => simpa [mapInsert] using h
  | cons q rest ih =>
      obtain ⟨k', v'⟩ := q
      by_cases he : k' = k
      · simp only [mapInsert, he, if_pos rfl] at h
        rcases List.mem_cons.mp h with h | h
        · exact Or.inl h
        · exact Or.inr (List.mem_cons_of_mem _ h)
      · simp only [mapInsert, if_neg he] at h
        rcases List.mem_cons.mp h with h | h
        · exact Or.inr (h ▸ List.mem_cons_self _ _)
        · rcases ih h with h | h
          · exact Or.inl h
          · exact Or.inr (List.mem_cons_of_mem _ h)

/-! ## Helper lemmas: the conversion -/

theorem Item_fromClean_fields {it : Clean.Item} {v : Types.Item}
    (h : Types.Item.fromClean it = some v) :
    v.id = Types.Id.fromDefId it.def_id ∧ v.name = it.name ∧
      v.crate_num = it.def_id.krate := by
  unfold Types.Item.fromClean at h
  cases hc : Types.ItemEnum.fromClean it.inner with
  | none => rw [hc] at h; exact absurd h (by simp)
  | some inner =>
      rw [hc] at h
      cases h
      exact ⟨rfl, rfl, rfl⟩

/-! ## Helper lemmas: `insert` -/

theorem insert_zero (c : Cache) (idx : Index) (it : Clean.Item) :
    JsonRenderer.insert 0 c idx it = .error .fuelOut := rfl

/-- A successful `insert` ends by storing, under the identifier derived from
the item's `def_id`, a converted item carrying that identifier and the
item's name; the index it stores into is either the incoming one or the
result of a relation resolution started from the incoming one. -/
theorem insert_succ_cases {n : Nat} {c : Cache} {idx : Index} {it : Clean.Item}
    {idx' : Index} (h : JsonRenderer.insert (n + 1) c idx it = .ok idx') :
    ∃ m w, idx' = mapInsert m (Types.Id.fromDefId it.def_id) w ∧
      w.id = Types.Id.fromDefId it.def_id ∧ w.name = it.name ∧
      (m = idx ∨ ∃ lo entries ids,
        JsonRenderer.resolveList (JsonRenderer.insert n c) lo entries idx =
          .ok (m, ids)) := by
  rw [JsonRenderer.insert] at h
  cases hc : Types.Item.fromClean it with
  | none => rw [hc] at h; exact absurd h (by simp)
  | some v =>
      obtain ⟨hid, hname, -⟩ := Item_fromClean_fields hc
      rw [hc] at h
      split at h
      · rename_i heq
        exact absurd heq (by simp)
      · rename_i w heq
        injection heq with hw
        subst hw
        split at h
        · split at h
          · exact absurd h (by simp)
          · rename_i idx1 ids1 heq1
            injection h with h2
            subst h2
            exact ⟨_, _, rfl, by simpa using hid, by simpa using hname,
              Or.inr ⟨_, _, _, heq1⟩⟩
        · split at h
          · exact absurd h (by simp)
          · rename_i idx1 ids1 heq1
            injection h with h2
            subst h2
            exact ⟨_, _, rfl, by simpa using hid, by simpa using hname,
              Or.inr ⟨_, _, _, heq1⟩⟩
        · split at h
          · exact absurd h (by simp)
          · rename_i idx1 ids1 heq1
            injection h with h2
            subst h2
            exact ⟨_, _, rfl, by simpa using hid, by simpa using hname,
              Or.inr ⟨_, _, _, heq1⟩⟩
        · injection h with h2
          subst h2
          exact ⟨_, _, rfl, by simpa using hid, by simpa using hname, Or.inl rfl⟩

/-! ## Helper lemmas: monotonicity and preservation -/

/-- Relation resolution only grows the set of present keys, provided each
single insertion does. -/
theorem resolveList_mono {ins : Index → Clean.Item → Except RErr Index}
    {lo : Bool}
    (hm : ∀ idx e idx', ins idx e = .ok idx' →
      ∀ k, (lookupIdx idx k).isSome = true → (lookupIdx idx' k).isSome = true) :
    ∀ entries idx idx' ids,
      JsonRenderer.resolveList ins lo entries idx = .ok (idx', ids) →
      ∀ k, (lookupIdx idx k).isSome = true → (lookupIdx idx' k).isSome = true := by
  intro entries
  induction entries with
  | nil =>
      intro idx idx' ids h k hk
      simp only [JsonRenderer.resolveList] at h
      injection h with h2
      injection h2 with h3 h4
      subst h3
      exact hk
  | cons e rest ih =>
      intro idx idx' ids h k hk
      simp only [JsonRenderer.resolveList] at h
      split at h
      · exact ih idx idx' ids h k hk
      · split at h
        · exact absurd h (by simp)
        · rename_i idx1 heq1
          split at h
          · exact absurd h (by simp)
          · rename_i idxf ids0 heq2
            injection h with h2
            injection h2 with h3 h4
            subst h3
            exact ih idx1 idxf ids0 heq2 k (hm idx e idx1 heq1 k hk)

/-- `insert` only grows the set of present keys. -/
theorem insert_mono : ∀ (n : Nat) (c : Cache) (idx : Index) (it : Clean.Item)
    (idx' : Index), JsonRenderer.insert n c idx it = .ok idx' →
    ∀ k, (lookupIdx idx k).isSome = true → (lookupIdx idx' k).isSome = true := by
  intro n
  induction n with
  | zero =>
      intro c idx it idx' h
      exact absurd h (by simp [insert_zero])
  | succ n ih =>
      intro c idx it idx' h k hk
      obtain ⟨m, w, rfl, -, -, hm⟩ := insert_succ_cases h
      rcases hm with rfl | ⟨lo, entries, ids, hr⟩
      · exact isSome_lookupIdx_mapInsert _ _ _ _ hk
      · exact isSome_lookupIdx_mapInsert _ _ _ _
          (resolveList_mono (fun a b a' hs => ih c a b a' hs)
            entries idx m ids hr k hk)

/-- A successful `insert` leaves the inserted item's own key present. -/
theorem insert_self_present {n : Nat} {c : Cache} {idx : Index}
    {it : Clean.Item} {idx' : Index}
    (h : JsonRenderer.insert n c idx it = .ok idx') :
    (lookupIdx idx' (Types.Id.fromDefId it.def_id)).isSome = true := by
  cases n with
  | zero => exact absurd h (by simp [insert_zero])
  | succ n =>
      obtain ⟨m, w, rfl, -, -, -⟩ := insert_succ_cases h
      simp [lookupIdx_mapInsert_self]

/-- Every identifier a relation resolution returns is present in the index
it produces, provided each single insertion leaves its own key present and
only grows the set of present keys. -/
theorem resolveList_ids_present {ins : Index → Clean.Item → Except RErr Index}
    {lo : Bool}
    (hself : ∀ idx e idx', ins idx e = .ok idx' →
      (lookupIdx idx' (Types.Id.fromDefId e.def_id)).isSome = true)
    (hm : ∀ idx e idx', ins idx e = .ok idx' →
      ∀ k, (lookupIdx idx k).isSome = true → (lookupIdx idx' k).isSome = true) :
    ∀ entries idx idx' ids,
      JsonRenderer.resolveList ins lo entries idx = .ok (idx', ids) →
      ∀ jid ∈ ids, (lookupIdx idx' jid).isSome = true := by
  intro entries
  induction entries with
  | nil =>
      intro idx idx' ids h jid hjid
      simp only [JsonRenderer.resolveList] at h
      injection h with h2
      injection h2 with h3 h4
      subst h4
      exact absurd hjid (by simp)
  | cons e rest ih =>
      intro idx idx' ids h jid hjid
      simp only [JsonRenderer.resolveList] at h
      split at h
      · exact ih idx idx' ids h jid hjid
      · split at h
        · exact absurd h (by simp)
        · rename_i idx1 heq1
          split at h
          · exact absurd h (by simp)
          · rename_i idxf ids0 heq2
            injection h with h2
            injection h2 with h3 h4
            subst h3
            subst h4
            rcases List.mem_cons.mp hjid with rfl | hjid
            · exact resolveList_mono hm rest idx1 idxf ids0 heq2 _
                (hself idx e idx1 heq1)
            · exact ih idx1 idxf ids0 heq2 jid hjid

/-- An unfiltered resolution (`localOnly = false`, the implementors path)
returns exactly the identifiers of all records, in table order. -/
theorem resolveList_false_ids {ins : Index → Clean.Item → Except RErr Index} :
    ∀ entries idx idx' ids,
      JsonRenderer.resolveList ins false entries idx = .ok (idx', ids) →
      ids = entries.map fun e => Types.Id.fromDefId e.def_id := by
  intro entries
  induction entries with
  | nil =>
      intro idx idx' ids h
      simp only [JsonRenderer.resolveList] at h
      injection h with h2
      injection h2 with h3 h4
      exact h4.symm
  | cons e rest ih =>
      intro idx idx' ids h
      simp only [JsonRenderer.resolveList] at h
      split at h
      · rename_i hskip
        exact absurd hskip (by simp)
      · split at h
        · exact absurd h (by simp)
        · rename_i idx1 heq1
          split at h
          · exact absurd h (by simp)
          · rename_i idxf ids0 heq2
            injection h with h2
            injection h2 with h3 h4
            subst h4
            simp [ih idx1 idxf ids0 heq2]

/-- A locality-filtered resolution (`localOnly = true`, the `get_impls`
path) only ever returns identifiers derived from local `def_id`s. -/
theorem resolveList_true_local {ins : Index → Clean.Item → Except RErr Index} :
    ∀ entries idx idx' ids,
      JsonRenderer.resolveList ins true entries idx = .ok (idx', ids) →
      ∀ jid ∈ ids, ∃ d : DefId, d.is_local = true ∧ jid = Types.Id.fromDefId d := by
  intro entries
  induction entries with
  | nil =>
      intro idx idx' ids h jid hjid
      simp only [JsonRenderer.resolveList] at h
      injection h with h2
      injection h2 with h3 h4
      subst h4
      exact absurd hjid (by simp)
  | cons e rest ih =>
      intro idx idx' ids h jid hjid
      simp only [JsonRenderer.resolveList] at h
      split at h
      · exact ih idx idx' ids h jid hjid
      · rename_i hskip
        have hloc : e.def_id.is_local = true := by
          by_contra hcon
          exact hskip (by simp [Bool.not_eq_true] at hcon; simp [hcon])
        split at h
        · exact absurd h (by simp)
        · rename_i idx1 heq1
          split at h
          · exact absurd h (by simp)
          · rename_i idxf ids0 heq2
            injection h with h2
            injection h2 with h3 h4
            subst h4
            rcases List.mem_cons.mp hjid with rfl | hjid
            · exact ⟨e.def_id, hloc, rfl⟩
            · exact ih idx1 idxf ids0 heq2 jid hjid

/-! ## Helper lemmas: the key-equals-id invariant -/

theorem mapInsert_wf {idx : Index} {k : Types.Id} {v : Types.Item}
    (hwf : IndexWf idx) (hv : v.id = k) : IndexWf (mapInsert idx k v) := by
  intro p hp
  rcases mem_mapInsert hp with rfl | hp'
  · exact hv
  · exact hwf p hp'

theorem resolveList_wf {ins : Index → Clean.Item → Except RErr Index}
    {lo : Bool}
    (hp : ∀ idx e idx', ins idx e = .ok idx' → IndexWf idx → IndexWf idx') :
    ∀ entries idx idx' ids,
      JsonRenderer.resolveList ins lo entries idx = .ok (idx', ids) →
      IndexWf idx → IndexWf idx' := by
  intro entries
  induction entries with
  | nil =>
      intro idx idx' ids h hwf
      simp only [JsonRenderer.resolveList] at h
      injection h with h2
      injection h2 with h3 h4
      subst h3
      exact hwf
  | cons e rest ih =>
      intro idx idx' ids h hwf
      simp only [JsonRenderer.resolveList] at h
      split at h
      · exact ih idx idx' ids h hwf
      · split at h
        · exact absurd h (by simp)
        · rename_i idx1 heq1
          split at h
          · exact absurd h (by simp)
          · rename_i idxf ids0 heq2
            injection h with h2
            injection h2 with h3 h4
            subst h3
            exact ih idx1 idxf ids0 heq2 (hp idx e idx1 heq1 hwf)

/-- `insert` preserves the key-equals-id invariant. -/
theorem insert_wf : ∀ (n : Nat) (c : Cache) (idx : Index) (it : Clean.Item)
    (idx' : Index), JsonRenderer.insert n c idx it = .ok idx' →
    IndexWf idx → IndexWf idx' := by
  intro n
  induction n with
  | zero =>
      intro c idx it idx' h
      exact absurd h (by simp [insert_zero])
  | succ n ih =>
      intro c idx it idx' h hwf
      obtain ⟨m, w, rfl, hid, -, hm⟩ := insert_succ_cases h
      have hmwf : IndexWf m := by
        rcases hm with rfl | ⟨lo, entries, ids, hr⟩
        · exact hwf
        · exact resolveList_wf (fun a b a' hs => ih c a b a' hs)
            entries idx m ids hr hwf
      exact mapInsert_wf hmwf hid

/-- `insertAll` (the flattening loop body) preserves the invariant. -/
theorem insertAll_wf {fuel : Nat} {c : Cache} :
    ∀ (entries : List Clean.Item) (idx idx' : Index),
      JsonRenderer.insertAll fuel c idx entries = .ok idx' →
      IndexWf idx → IndexWf idx' := by
  intro entries
  induction entries with
  | nil =>
      intro idx idx' h hwf
      simp only [JsonRenderer.insertAll] at h
      injection h with h2
      subst h2
      exact hwf
  | cons e rest ih =>
      intro idx idx' h hwf
      simp only [JsonRenderer.insertAll] at h
      split at h
      · exact absurd h (by simp)
      · rename_i idx1 heq1
        exact ih idx1 idx' h (insert_wf fuel c idx e idx1 heq1 hwf)

/-- The flattening pass preserves the invariant. -/
theorem item_wf {fuel : Nat} {c : Cache} {idx : Index} {it : Clean.Item}
    {idx' : Index} (h : JsonRenderer.item fuel c idx it = .ok idx')
    (hwf : IndexWf idx) : IndexWf idx' := by
  simp only [JsonRenderer.item] at h
  split at h
  · exact absurd h (by simp)
  · rename_i idxm heqm
    have hmwf : IndexWf idxm := by
      split at heqm
      · exact insertAll_wf _ idx idxm heqm hwf
      · exact insertAll_wf _ idx idxm heqm hwf
      · exact insertAll_wf _ idx idxm heqm hwf
      · exact insertAll_wf _ idx idxm heqm hwf
      · exact insertAll_wf _ idx idxm heqm hwf
      · exact insertAll_wf _ idx idxm heqm hwf
      · injection heqm with h2
        subst h2
        exact hwf
    exact insert_wf fuel c idxm it idx' h hmwf

/-- Processing any traversal event sequence preserves the invariant. -/
theorem processEvents_wf {fuel : Nat} {c : Cache} :
    ∀ (evs : List JsonRenderer.Event) (idx idx' : Index),
      JsonRenderer.processEvents fuel c idx evs = .ok idx' →
      IndexWf idx → IndexWf idx' := by
  intro evs
  induction evs with
  | nil =>
      intro idx idx' h hwf
      simp only [JsonRenderer.processEvents] at h
      injection h with h2
      subst h2
      exact hwf
  | cons ev rest ih =>
      intro idx idx' h hwf
      simp only [JsonRenderer.processEvents] at h
      split at h
      · exact absurd h (by simp)
      · rename_i idx1 heq1
        have h1 : IndexWf idx1 := by
          split at heq1
          · exact insert_wf fuel c idx _ idx1 heq1 hwf
          · injection heq1 with h2
            subst h2
            exact hwf
          · exact item_wf heq1 hwf
        exact ih idx1 idx' h h1

/-! ## Helper lemmas: termination of the relation resolver -/

theorem isImplKind_inv {x : Clean.ItemEnum} (h : x.isImplKind = true) :
    ∃ l, x = .ImplItem l := by
  cases x <;> simp [Clean.ItemEnum.isImplKind] at h
  exact ⟨_, rfl⟩

/-- Inserting an implementation block takes the default branch of `insert`:
no relation lookup is triggered, the converted block is stored directly, and
the result does not depend on the remaining fuel. -/
theorem insert_implKind {n : Nat} {c : Cache} {idx : Index} {it : Clean.Item}
    {l : List Clean.Item} (h : it.inner = .ImplItem l) :
    JsonRenderer.insert (n + 1) c idx it =
      .ok (mapInsert idx (Types.Id.fromDefId it.def_id)
        { id := Types.Id.fromDefId it.def_id
          crate_num := it.def_id.krate
          name := it.name
          kind := .Impl
          inner := .ImplItem ⟨l.map fun i => Types.Id.fromDefId i.def_id⟩ }) := by
  obtain ⟨nm, did, einner⟩ := it
  cases h
  rfl

/-- Over a table of implementation blocks the resolution loop succeeds, with
a result independent of the fuel handed to the insertions. -/
theorem resolveList_leaf {c : Cache} {lo : Bool} :
    ∀ entries : List Clean.Item,
      (∀ e ∈ entries, e.inner.isImplKind = true) →
      ∀ idx, ∃ out, ∀ m,
        JsonRenderer.resolveList (JsonRenderer.insert (m + 1) c) lo entries idx =
          .ok out := by
  intro entries
  induction entries with
  | nil =>
      intro hall idx
      exact ⟨(idx, []), fun m => rfl⟩
  | cons e rest ih =>
      intro hall idx
      obtain ⟨l, hl⟩ := isImplKind_inv (hall e (List.mem_cons_self e rest))
      by_cases hskip : (lo && !e.def_id.is_local) = true
      · obtain ⟨out, hout⟩ := ih (fun x hx => hall x (List.mem_cons_of_mem _ hx)) idx
        refine ⟨out, fun m => ?_⟩
        simp only [JsonRenderer.resolveList, if_pos hskip]
        exact hout m
      · obtain ⟨⟨idxf, ids0⟩, hout⟩ :=
          ih (fun x hx => hall x (List.mem_cons_of_mem _ hx))
            (mapInsert idx (Types.Id.fromDefId e.def_id)
              { id := Types.Id.fromDefId e.def_id
                crate_num := e.def_id.krate
                name := e.name
                kind := .Impl
                inner := .ImplItem ⟨l.map fun i => Types.Id.fromDefId i.def_id⟩ })
        refine ⟨(idxf, Types.Id.fromDefId e.def_id :: ids0), fun m => ?_⟩
        simp only [JsonRenderer.resolveList, if_neg hskip]
        rw [insert_implKind hl]
        simp [hout m]

theorem tableGet_mem {t : List (DefId × List Clean.Item)} {k : DefId}
    {e : Clean.Item} (h : e ∈ tableGet t k) : ∃ p ∈ t, e ∈ p.2 := by
  induction t with
  | nil => exact absurd h (by simp [tableGet])
  | cons q rest ih =>
      obtain ⟨k', l⟩ := q
      by_cases he : k' = k
      · subst he
        simp only [tableGet, if_pos rfl] at h
        exact ⟨(k', l), List.mem_cons_self _ _, h⟩
      · simp only [tableGet, if_neg he] at h
        obtain ⟨p, hp, hep⟩ := ih h
        exact ⟨p, List.mem_cons_of_mem _ hp, hep⟩

/-- Under the spec's relation-table contract, every record reachable through
either table is an implementation block. -/
theorem implOnly_tableGet {c : Cache} (h : c.implOnly = true) (k : DefId) :
    (∀ e ∈ tableGet c.impls k, e.inner.isImplKind = true) ∧
      (∀ e ∈ tableGet c.implementors k, e.inner.isImplKind = true) := by
  simp only [Cache.implOnly, Bool.and_eq_true, List.all_eq_true] at h
  obtain ⟨h1, h2⟩ := h
  constructor
  · intro e he
    obtain ⟨p, hp, hep⟩ := tableGet_mem he
    exact h1 p hp e hep
  · intro e he
    obtain ⟨p, hp, hep⟩ := tableGet_mem he
    exact h2 p hp e hep

/-! ## Helper lemmas: totality of the conversion -/

theorem fromClean_isSome_aux :
    ∀ (d : Nat) (x : Clean.ItemEnum), stripDepth x ≤ d →
      (Types.ItemEnum.fromClean x).isSome = !unsupportedForJson x := by
  intro d
  induction d with
  | zero =>
      intro x hx
      cases x
      case VariantItem vk =>
        cases vk <;> simp [Types.ItemEnum.fromClean, unsupportedForJson]
      case StrippedItem inner =>
        exact absurd hx (by simp [stripDepth])
      all_goals simp [Types.ItemEnum.fromClean, unsupportedForJson]
  | succ d ih =>
      intro x hx
      cases x
      case VariantItem vk =>
        cases vk <;> simp [Types.ItemEnum.fromClean, unsupportedForJson]
      case StrippedItem inner =>
        have hd : stripDepth inner ≤ d := by
          simp only [stripDepth] at hx
          omega
        have hin := ih inner hd
        simp only [Types.ItemEnum.fromClean, unsupportedForJson]
        cases hfc : Types.ItemEnum.fromClean inner with
        | none =>
            rw [hfc] at hin
            simpa using hin
        | some v =>
            rw [hfc] at hin
            simpa using hin
      all_goals simp [Types.ItemEnum.fromClean, unsupportedForJson]

end RustdocJson

namespace RustdocJson

/-! ## The claims -/

/-- Claim C1, counterexample: inserting item "A" under identifier `0:7` and
then a different payload "A2" under the same identifier leaves the *second*
payload in the index, not the first — re-insertion is an overwrite
(`FxHashMap::insert`), not a no-op. -/
theorem c1_insert_overwrite_counterexample :
    JsonRenderer.insert 1 emptyCache [] c1itemA = .ok c1idx1 ∧
    JsonRenderer.insert 1 emptyCache c1idx1 c1itemA2 = .ok c1idx2 ∧
    (lookupIdx c1idx2 ⟨"0:7"⟩).map Types.Item.name = some (some "A2") ∧
    (lookupIdx c1idx2 ⟨"0:7"⟩).map Types.Item.name ≠ some (some "A") := by
  decide

/-- Claim C1, amended: a second insert of an already-present identifier
overwrites the entry — after inserting `a` and then `a2` under the same
identifier, the index maps that identifier to an entry carrying the second
payload's name, never the first payload. -/
theorem c1_reinsert_overwrites {n m : Nat} {c : Cache} {idx idx1 idx2 : Index}
    {a a2 : Clean.Item} (hsame : a.def_id = a2.def_id)
    (_h1 : JsonRenderer.insert n c idx a = .ok idx1)
    (h2 : JsonRenderer.insert m c idx1 a2 = .ok idx2) :
    ∃ w, lookupIdx idx2 (Types.Id.fromDefId a.def_id) = some w ∧
      w.name = a2.name := by
  cases m with
  | zero => exact absurd h2 (by simp [insert_zero])
  | succ m =>
      obtain ⟨mm, w, rfl, -, hname, -⟩ := insert_succ_cases h2
      rw [hsame]
      exact ⟨w, lookupIdx_mapInsert_self _ _ _, hname⟩

/-- Witness for the amended C1 at the concrete inputs of the
counterexample. -/
theorem c1_reinsert_overwrites_witness :
    c1itemA.def_id = c1itemA2.def_id ∧
    JsonRenderer.insert 1 emptyCache [] c1itemA = .ok c1idx1 ∧
    JsonRenderer.insert 1 emptyCache c1idx1 c1itemA2 = .ok c1idx2 ∧
    ∃ w, lookupIdx c1idx2 (Types.Id.fromDefId c1itemA.def_id) = some w ∧
      w.name = c1itemA2.name :=
  ⟨by decide, by decide, by decide,
    @c1_reinsert_overwrites 1 1 emptyCache [] c1idx1 c1idx2 c1itemA c1itemA2
      (by decide) (by decide) (by decide)⟩

/-- Claim C2 (code bug): after a full traversal of a crate holding one enum
with a struct-like variant, the assembled document's index contains the
variant, whose body lists its local field `0:23` as a container member, yet
the field has no entry in the assembled index — completeness fails. -/
theorem c2_completeness_failure :
    JsonRenderer.processEvents 2 emptyCache []
        [.mod_item_in (.mk (some "krate") ⟨0, 20⟩ (.ModuleItem true [c2enum])),
         .item c2enum, .mod_item_out] = .ok c2idx ∧
    c2doc.index = c2idx ∧
    (lookupIdx c2doc.index ⟨"0:22"⟩).map (fun v => memberIds v.inner) =
      some [⟨"0:23"⟩] ∧
    DefId.is_local ⟨0, 23⟩ = true ∧
    lookupIdx c2doc.index ⟨"0:23"⟩ = none := by
  decide

/-- Claim C3, counterexample: `get_impls` inserts the implementation block
`0:42` and returns its identifier, but the block's owned member `0:43`,
listed in the stored body, is not inserted into the index. -/
theorem c3_members_not_inserted_counterexample :
    JsonRenderer.get_impls 1 c3cache [] ⟨0, 41⟩ = .ok c3out ∧
    c3out.2 = [⟨"0:42"⟩] ∧
    (lookupIdx c3out.1 ⟨"0:42"⟩).map (fun v => memberIds v.inner) =
      some [⟨"0:43"⟩] ∧
    lookupIdx c3out.1 ⟨"0:43"⟩ = none := by
  decide

/-- Claim C3, amended: every implementation block whose identifier
`get_impls` or `get_trait_implementors` returns has been converted and
inserted into the index by that call — but without its owned member items. -/
theorem c3_blocks_indexed {n : Nat} {c : Cache} {idx : Index} {tid : DefId}
    {idx' : Index} {ids : List Types.Id} :
    (JsonRenderer.get_impls n c idx tid = .ok (idx', ids) →
      ∀ jid ∈ ids, (lookupIdx idx' jid).isSome = true) ∧
    (JsonRenderer.get_trait_implementors n c idx tid = .ok (idx', ids) →
      ∀ jid ∈ ids, (lookupIdx idx' jid).isSome = true) := by
  constructor
  · intro h
    exact resolveList_ids_present (fun a b a' hs => insert_self_present hs)
      (fun a b a' hs => insert_mono n c a b a' hs) _ idx idx' ids h
  · intro h
    exact resolveList_ids_present (fun a b a' hs => insert_self_present hs)
      (fun a b a' hs => insert_mono n c a b a' hs) _ idx idx' ids h

/-- Witness for the amended C3 at the concrete one-impl cache. -/
theorem c3_blocks_indexed_witness :
    JsonRenderer.get_impls 1 c3cache [] ⟨0, 41⟩ = .ok (c3out.1, c3out.2) ∧
    ∀ jid ∈ c3out.2, (lookupIdx c3out.1 jid).isSome = true :=
  ⟨by decide,
    (@c3_blocks_indexed 1 c3cache [] ⟨0, 41⟩ c3out.1 c3out.2).1 (by decide)⟩

/-- Claim C4 (code bug): the flattening pass on an enum inserts the enum and
its variants, the stored struct-like variant's body lists its field `0:33`
as owned, but the field itself is never inserted — the "struct-like variants
→ their fields" recursion the claim describes does not happen. -/
theorem c4_variant_fields_not_flattened :
    JsonRenderer.item 2 emptyCache [] c4enum = .ok c4idx ∧
    (lookupIdx c4idx ⟨"0:31"⟩).isSome = true ∧
    (lookupIdx c4idx ⟨"0:32"⟩).map (fun v => memberIds v.inner) =
      some [⟨"0:33"⟩] ∧
    lookupIdx c4idx ⟨"0:33"⟩ = none := by
  decide

/-- Claim C5 (confirmed): every identifier `get_impls` returns is derived
from a local `def_id` — non-local implementation blocks are never appended
to the result. -/
theorem c5_impls_local_only {n : Nat} {c : Cache} {idx : Index} {tid : DefId}
    {idx' : Index} {ids : List Types.Id}
    (h : JsonRenderer.get_impls n c idx tid = .ok (idx', ids)) :
    ∀ jid ∈ ids, ∃ d : DefId, d.is_local = true ∧ jid = Types.Id.fromDefId d :=
  resolveList_true_local _ idx idx' ids h

/-- Witness for C5 at a cache holding one local and one external block: the
external block `1:63` is dropped from the result. -/
theorem c5_impls_local_only_witness :
    JsonRenderer.get_impls 1 c5cache [] ⟨0, 61⟩ = .ok (c5out.1, c5out.2) ∧
    c5out.2 = [⟨"0:62"⟩] ∧
    ∀ jid ∈ c5out.2, ∃ d : DefId, d.is_local = true ∧
      jid = Types.Id.fromDefId d :=
  ⟨by decide, by decide,
    @c5_impls_local_only 1 c5cache [] ⟨0, 61⟩ c5out.1 c5out.2 (by decide)⟩

/-- Claim C6, counterexample: `get_trait_implementors` returns the external
implementor `1:53` alongside the local one — the returned identifier list is
not filtered to local-only (and the renderer consults no configuration). -/
theorem c6_returns_nonlocal_counterexample :
    JsonRenderer.get_trait_implementors 1 c6cache [] ⟨0, 51⟩ = .ok c6out ∧
    c6out.2 = [⟨"0:52"⟩, ⟨"1:53"⟩] ∧
    DefId.is_local ⟨1, 53⟩ = false ∧
    Types.Id.fromDefId ⟨1, 53⟩ ∈ c6out.2 := by
  decide

/-- Claim C6, amended: `get_trait_implementors` inserts every implementation
block found in the implementors table regardless of its crate origin, and
returns the identifiers of *all* of them, unfiltered, in table order. -/
theorem c6_implementors_indexed_all {n : Nat} {c : Cache} {idx : Index}
    {tid : DefId} {idx' : Index} {ids : List Types.Id}
    (h : JsonRenderer.get_trait_implementors n c idx tid = .ok (idx', ids)) :
    ids = (tableGet c.implementors tid).map
        (fun e => Types.Id.fromDefId e.def_id) ∧
      ∀ e ∈ tableGet c.implementors tid,
        (lookupIdx idx' (Types.Id.fromDefId e.def_id)).isSome = true := by
  have hids := resolveList_false_ids _ idx idx' ids h
  refine ⟨hids, fun e he => ?_⟩
  have hmem : Types.Id.fromDefId e.def_id ∈ ids := by
    rw [hids]
    exact List.mem_map_of_mem _ he
  exact resolveList_ids_present (fun a b a' hs => insert_self_present hs)
    (fun a b a' hs => insert_mono n c a b a' hs) _ idx idx' ids h _ hmem

/-- Witness for the amended C6 at the mixed local/external cache. -/
theorem c6_implementors_indexed_all_witness :
    JsonRenderer.get_trait_implementors 1 c6cache [] ⟨0, 51⟩ =
        .ok (c6out.1, c6out.2) ∧
    (c6out.2 = (tableGet c6cache.implementors ⟨0, 51⟩).map
        (fun e => Types.Id.fromDefId e.def_id) ∧
      ∀ e ∈ tableGet c6cache.implementors ⟨0, 51⟩,
        (lookupIdx c6out.1 (Types.Id.fromDefId e.def_id)).isSome = true) :=
  ⟨by decide,
    @c6_implementors_indexed_all 1 c6cache [] ⟨0, 51⟩ c6out.1 c6out.2 (by decide)⟩

/-- Claim C7 (confirmed): when the relation tables hold implementation
blocks — whose insertion takes the default branch of `insert` and so never
re-triggers a relation lookup — both `get_impls` and
`get_trait_implementors` succeed for every key and every index, and their
result does not depend on the available fuel: the mutual recursion between
`insert` and the relation lookups bottoms out. -/
theorem c7_relation_lookups_terminate {c : Cache} (h : c.implOnly = true)
    (n : Nat) (idx : Index) (id : DefId) :
    (∃ out, JsonRenderer.get_impls (n + 1) c idx id = .ok out) ∧
    JsonRenderer.get_impls (n + 1) c idx id =
      JsonRenderer.get_impls 1 c idx id ∧
    (∃ out, JsonRenderer.get_trait_implementors (n + 1) c idx id = .ok out) ∧
    JsonRenderer.get_trait_implementors (n + 1) c idx id =
      JsonRenderer.get_trait_implementors 1 c idx id := by
  obtain ⟨h1, h2⟩ := implOnly_tableGet h id
  obtain ⟨out1, hout1⟩ := resolveList_leaf (tableGet c.impls id) h1 idx
  obtain ⟨out2, hout2⟩ := resolveList_leaf (tableGet c.implementors id) h2 idx
  exact ⟨⟨out1, hout1 n⟩, (hout1 n).trans (hout1 0).symm,
    ⟨out2, hout2 n⟩, (hout2 n).trans (hout2 0).symm⟩

/-- Witness for C7 at a concrete impl-only cache. -/
theorem c7_relation_lookups_terminate_witness :
    c7cache.implOnly = true ∧
    ((∃ out, JsonRenderer.get_impls 1 c7cache [] ⟨0, 71⟩ = .ok out) ∧
      JsonRenderer.get_impls 1 c7cache [] ⟨0, 71⟩ =
        JsonRenderer.get_impls 1 c7cache [] ⟨0, 71⟩ ∧
      (∃ out, JsonRenderer.get_trait_implementors 1 c7cache [] ⟨0, 71⟩ =
        .ok out) ∧
      JsonRenderer.get_trait_implementors 1 c7cache [] ⟨0, 71⟩ =
        JsonRenderer.get_trait_implementors 1 c7cache [] ⟨0, 71⟩) :=
  ⟨by decide, c7_relation_lookups_terminate (by decide) 0 [] ⟨0, 71⟩⟩

/-- Claim C8, counterexample: a stripped wrapper is a supported kind (it has
its own conversion arm, and does not hit the wildcard directly), yet
converting a stripped wrapper around an unsupported kind panics. -/
theorem c8_stripped_unsupported_counterexample :
    unsupportedKindDirect (.StrippedItem .PrimitiveItem) = false ∧
    Types.ItemEnum.fromClean (.StrippedItem .PrimitiveItem) = none ∧
    Types.Item.fromClean (.mk none ⟨0, 81⟩ (.StrippedItem .PrimitiveItem)) =
      none := by
  decide

/-- Claim C8, amended: the item conversion is total — a public item is
returned — on every internal item except those of an unsupported kind
(primitive, keyword) and stripped wrappers transitively around an
unsupported kind, on exactly which it fails. -/
theorem c8_conversion_total_except_unsupported (it : Clean.Item) :
    (Types.Item.fromClean it).isSome = !unsupportedForJson it.inner := by
  have h := fromClean_isSome_aux (stripDepth it.inner) it.inner le_rfl
  cases hc : Types.ItemEnum.fromClean it.inner with
  | none =>
      rw [hc] at h
      simp only [Types.Item.fromClean, hc]
      simpa using h
  | some v =>
      rw [hc] at h
      simp only [Types.Item.fromClean, hc]
      simpa using h

/-- Claim C9 (confirmed): every operation that mutates the index — `insert`,
the flattening pass `item`, and a whole traversal — preserves the invariant
that each entry's stored item carries the identifier it is keyed under. -/
theorem c9_index_key_matches_id (n : Nat) (c : Cache) :
    (∀ idx it idx', IndexWf idx →
      JsonRenderer.insert n c idx it = .ok idx' → IndexWf idx') ∧
    (∀ idx it idx', IndexWf idx →
      JsonRenderer.item n c idx it = .ok idx' → IndexWf idx') ∧
    (∀ idx evs idx', IndexWf idx →
      JsonRenderer.processEvents n c idx evs = .ok idx' → IndexWf idx') :=
  ⟨fun idx it idx' hwf h => insert_wf n c idx it idx' h hwf,
   fun _ _ _ hwf h => item_wf h hwf,
   fun evs idx idx' hwf h => processEvents_wf idx evs idx' h hwf⟩

/-- Witness for C9: a trait insertion that re-enters the index through the
relation resolver, starting from the empty (trivially well-formed) index. -/
theorem c9_index_key_matches_id_witness :
    IndexWf ([] : Index) ∧
    JsonRenderer.insert 2 c7cache [] c9item = .ok c9idx ∧
    IndexWf c9idx :=
  ⟨fun p hp => absurd hp (List.not_mem_nil p), by decide,
    (c9_index_key_matches_id 2 c7cache).1 [] c9item c9idx
      (fun p hp => absurd hp (List.not_mem_nil p)) (by decide)⟩

/-- Claim C10 (confirmed): for every crate, cache and accumulated index, the
root identifier of the assembled document is the constant `"0:0"` — the
identifier of local crate number 0, definition index 0 — independent of the
traversed crate's actual root item. -/
theorem c10_root_constant (k : CleanCrate) (c : Cache) (idx : Index) :
    (JsonRenderer.after_krate k c idx).root = ⟨"0:0"⟩ ∧
    Types.Id.fromDefId ⟨0, 0⟩ = (⟨"0:0"⟩ : Types.Id) :=
  ⟨rfl, by decide⟩

end RustdocJson
